import Mathlib

/-!
Verification of the deferred-release coordinator (yarn-plugin-dev-tool).

Shallow embedding of the release-resolution logic of the `version apply` and
`version check` commands (src/sources/commands/apply.ts and the check command
bundled with it), together with proofs of the claims about relevancy pruning,
the fixed-point loop, effect gating under `--dry-run`/`--prerelease`, and the
interactive resolution's persistence behaviour.

Workspaces are identified by natural numbers; the `Releases` map
(JS `Map<Workspace, Decision>`) is an association list whose observable
behaviour is its `lookup` function (first matching key, as in a JS `Map`
whose keys are unique).
-/

namespace DevTool

/-- A workspace of the project, identified by an index. -/
abbrev Workspace := Nat

/-- The vocabulary of release decisions (`versionUtils.Decision`): the
sentinel `undecided`, an explicit refusal `decline`, the increment keywords,
or an explicit semver string. -/
inductive Decision where
  | undecided
  | decline
  | patch
  | minor
  | major
  | preversion
  | explicitVer (v : String)
  deriving DecidableEq, Repr

/-- Releases (`Map<Workspace, Decision>`): an association list from
workspaces to decisions. -/
abbrev Releases := List (Workspace × Decision)

/-- Lookup in a releases map: the decision of the first entry for `w`
(JS `Map.prototype.get`). -/
def lookupRel (rs : Releases) (w : Workspace) : Option Decision :=
  match rs with
  | [] => none
  | (w', d) :: rest => if w' = w then some d else lookupRel rest w

/-- JS `Map.prototype.set`: replace the entry for `w` in place if present,
otherwise append a new entry. -/
def mapSet (rs : Releases) (w : Workspace) (d : Decision) : Releases :=
  match rs with
  | [] => [(w, d)]
  | (w', d') :: rest =>
      if w' = w then (w, d) :: rest else (w', d') :: mapSet rest w d

/-- JS `Map.prototype.delete`: drop the entries for `w`. -/
def mapDelete (rs : Releases) (w : Workspace) : Releases :=
  rs.filter (fun p => p.1 ≠ w)

theorem lookupRel_mapSet (rs : Releases) (w x : Workspace) (d : Decision) :
    lookupRel (mapSet rs w d) x = if w = x then some d else lookupRel rs x := by
  induction rs with
  | nil => simp [mapSet, lookupRel]
  | cons p rest ih =>
      obtain ⟨w', d'⟩ := p
      by_cases h : w' = w
      · subst h
        by_cases hx : w' = x <;> simp [mapSet, lookupRel, hx]
      · by_cases hx : w' = x
        · subst hx
          have hwx : ¬w = w' := fun hc => h hc.symm
          simp [mapSet, lookupRel, h, hwx]
        · simp [mapSet, lookupRel, h, hx, ih]

theorem lookupRel_mapDelete (rs : Releases) (w x : Workspace) :
    lookupRel (mapDelete rs w) x = if w = x then none else lookupRel rs x := by
  induction rs with
  | nil => simp [mapDelete, lookupRel]
  | cons p rest ih =>
      obtain ⟨w', d'⟩ := p
      by_cases h : w' = w
      · subst h
        by_cases hx : w' = x
        · subst hx
          simp [mapDelete, lookupRel] at ih ⊢
          simpa using ih
        · simp [mapDelete, lookupRel, hx] at ih ⊢
          simpa [hx] using ih
      · by_cases hx : w' = x
        · subst hx
          have hwx : ¬w = w' := fun hc => h hc.symm
          simp [mapDelete, lookupRel, h, hwx]
        · simp [mapDelete, lookupRel, h, hx] at ih ⊢
          exact ih

/-- The project's workspace model: the list of workspaces and the direct
dependency edges, `(w, u) ∈ deps` meaning workspace `w` depends on
workspace `u`. -/
structure Project where
  workspaces : List Workspace
  deps : List (Workspace × Workspace)
  deriving Repr

/-- The `VersionFile` aggregate loaded by `openVersionFile`: the VCS root
(or `none` outside a Git repository), the set of release roots, the merged
releases map, and the owning project. -/
structure VersionFile where
  root : Option String
  releaseRoots : List Workspace
  releases : Releases
  project : Project

end DevTool

namespace DevTool

/-! ## The `version apply` command (`VersionApplyCommand.execute`) -/

/-- The value of the clipanion option `--prerelease` declared with
`tolerateBoolean: true`: absent (`undefined`), a boolean, or a string. -/
inductive PrereleaseOpt where
  | absent
  | bool (b : Bool)
  | str (s : String)
  deriving DecidableEq, Repr

/-- JS truthiness of the option value: `undefined` and `false` are falsy,
and so is the empty string. -/
def jsTruthy : PrereleaseOpt → Bool
  | .absent => false
  | .bool b => b
  | .str s => s ≠ ""

/-- The prerelease identifier computed on line 63 of the apply command:
`this.prerelease ? (typeof this.prerelease !== 'boolean' ? this.prerelease
: 'rc.%n') : null`. -/
def prereleaseIdent (o : PrereleaseOpt) : Option String :=
  if jsTruthy o then
    match o with
    | .str s => some s
    | _ => some "rc.%n"
  else none

/-- The externally observable effects of one run of
`VersionApplyCommand.execute`'s report body. -/
structure ApplyEffects where
  passedPrerelease : Option String
  warnedNothingToDo : Bool
  appliedReleases : Bool
  clearedVersionFiles : Bool
  ranInstall : Bool
  exitCode : Nat
  deriving DecidableEq, Repr

/-- Shallow embedding of the report body of `VersionApplyCommand.execute`
(lines 62–86): compute the prerelease identifier, resolve the version files
(`resolve` stands for `versionUtils.resolveVersionFiles project {prerelease}`,
external to src/), warn and return when the resolved map is empty, otherwise
apply the releases and, unless `--dry-run`, clear the version files when no
prerelease identifier is set and then run the installer.  The exit code of
the surrounding `StreamReport` is modelled from the spec: a warning alone
still exits successfully (code 0). -/
def executeApply (dryRun : Bool) (o : PrereleaseOpt)
    (resolve : Option String → Releases) : ApplyEffects :=
  let prerelease := prereleaseIdent o
  let allReleases := resolve prerelease
  if allReleases.isEmpty then
    { passedPrerelease := prerelease
      warnedNothingToDo := true
      appliedReleases := false
      clearedVersionFiles := false
      ranInstall := false
      exitCode := 0 }
  else if dryRun then
    { passedPrerelease := prerelease
      warnedNothingToDo := false
      appliedReleases := true
      clearedVersionFiles := false
      ranInstall := false
      exitCode := 0 }
  else
    { passedPrerelease := prerelease
      warnedNothingToDo := false
      appliedReleases := true
      clearedVersionFiles := prerelease.isNone
      ranInstall := true
      exitCode := 0 }

end DevTool

namespace DevTool

/-! ## Relevancy pruning (`getRelevancy`, `setWorkspaceRelease`) -/

/-- Modelled from the spec: helper for
`versionUtils.getUndecidedDependentWorkspaces`, which is repository code not
present under src/.  Per §4.3, a workspace is implicated when it depends
directly on any workspace present as a key in `releases` with a decision
other than `DECLINE`. -/
def hasReleasedDependency (p : Project) (releases : Releases)
    (w : Workspace) : Bool :=
  p.deps.any (fun e =>
    e.1 == w &&
      match lookupRel releases e.2 with
      | some d => d != Decision.decline
      | none => false)

/-- Modelled from the spec: `versionUtils.getUndecidedDependentWorkspaces`
is repository code not present under src/.  Per §4.3, it returns every
workspace of the project that has no entry in `releases` yet and depends
directly on a workspace whose entry in `releases` is a decision other than
`DECLINE`, paired with the decision `UNDECIDED`. -/
def getUndecidedDependentWorkspaces (p : Project) (releases : Releases) :
    List (Workspace × Decision) :=
  (p.workspaces.filter (fun w =>
      (lookupRel releases w).isNone && hasReleasedDependency p releases w)).map
    (fun w => (w, Decision.undecided))

/-- One pass of the `for (const [workspace] of undecidedDependentWorkspaces)`
body inside `getRelevancy`'s `while (true)` loop (lines 318–331): skip
workspaces already in `relevantWorkspaces`, otherwise add them, record that
a new dependent appeared, and copy the workspace's decision from the input
`releases` map into `relevantReleases` when it has one. -/
def addDependents (releases : Releases) :
    List (Workspace × Decision) → List Workspace → Releases → Bool →
      List Workspace × Releases × Bool
  | [], rw, rr, hasNew => (rw, rr, hasNew)
  | (w, _) :: rest, rw, rr, hasNew =>
      if w ∈ rw then addDependents releases rest rw rr hasNew
      else
        addDependents releases rest (rw ++ [w])
          (match lookupRel releases w with
            | some r => mapSet rr w r
            | none => rr)
          true

/-- The `while (true)` loop of `getRelevancy` (lines 310–336), with an
explicit fuel argument: recompute the undecided dependents of the current
`relevantReleases`, add the new ones, and stop as soon as an iteration adds
no new dependent.  `relevancyLoop_iterations_bounded` shows that fuel
`|workspaces| + 1` always reaches the loop's own exit condition, so the
embedding agrees with the unbounded source loop. -/
def relevancyLoop (releases : Releases) (p : Project) :
    Nat → List Workspace → Releases → List Workspace × Releases
  | 0, rw, rr => (rw, rr)
  | fuel + 1, rw, rr =>
      let step :=
        addDependents releases (getUndecidedDependentWorkspaces p rr) rw rr
          false
      if step.2.2 then relevancyLoop releases p fuel step.1 step.2.1
      else (rw, rr)

/-- The result of `getRelevancy`. -/
structure Relevancy where
  relevantWorkspaces : List Workspace
  relevantReleases : Releases
  deriving Repr

/-- Shallow embedding of `getRelevancy` (lines 294–342): start from the
release roots, keep only the input decisions whose workspace is a root, and
grow the pair to a fixed point of the undecided-dependent relation. -/
def getRelevancy (vf : VersionFile) (releases : Releases) : Relevancy :=
  let relevantWorkspaces := vf.releaseRoots
  let relevantReleases :=
    releases.filter (fun q => decide (q.1 ∈ relevantWorkspaces))
  let res :=
    relevancyLoop releases vf.project (vf.project.workspaces.length + 1)
      relevantWorkspaces relevantReleases
  ⟨res.1, res.2⟩

/-- Shallow embedding of the `setWorkspaceRelease` callback (lines 350–365):
copy the current releases map, store the decision (or delete the entry when
the decision is `UNDECIDED`), and keep only the relevant releases. -/
def setWorkspaceRelease (vf : VersionFile) (releases : Releases)
    (workspace : Workspace) (decision : Decision) : Releases :=
  let copy :=
    if decision ≠ Decision.undecided then mapSet releases workspace decision
    else mapDelete releases workspace
  (getRelevancy vf copy).relevantReleases

/-- The workspaces transitively implicated by the retained decisions:
the release roots themselves, plus every workspace of the project that
depends directly on an implicated workspace whose decision in the input
map is present and differs from `DECLINE`. -/
inductive Implicated (p : Project) (releases : Releases)
    (roots : List Workspace) : Workspace → Prop
  | root {w : Workspace} : w ∈ roots → Implicated p releases roots w
  | dep {u w : Workspace} {d : Decision} : Implicated p releases roots u →
      lookupRel releases u = some d → d ≠ Decision.decline →
      (w, u) ∈ p.deps → w ∈ p.workspaces → Implicated p releases roots w

/-- The map `rr` is exactly the restriction of `releases` to the workspace
set `rw`. -/
def RestrictedTo (releases rr : Releases) (rw : List Workspace) : Prop :=
  ∀ x : Workspace,
    lookupRel rr x = if x ∈ rw then lookupRel releases x else none

/-- The number of project workspaces not yet in `rw`: the termination
measure of the relevancy loop. -/
def missingCount (p : Project) (rw : List Workspace) : Nat :=
  (p.workspaces.filter (fun w => decide (w ∉ rw))).length

theorem length_filter_mono (l : List Workspace) (f g : Workspace → Bool)
    (h : ∀ a ∈ l, g a = true → f a = true) :
    (l.filter g).length ≤ (l.filter f).length := by
  induction l with
  | nil => exact Nat.le_refl _
  | cons a l ih =>
      have hl : ∀ b ∈ l, g b = true → f b = true := fun b hb =>
        h b (List.mem_cons_of_mem a hb)
      cases hg : g a with
      | true =>
          have hf : f a = true := h a (List.mem_cons_self a l) hg
          simp only [List.filter_cons, hg, hf, if_true, List.length_cons]
          exact Nat.succ_le_succ (ih hl)
      | false =>
          cases hf : f a with
          | true =>
              simp only [List.filter_cons, hg, hf, List.length_cons]
              exact Nat.le_succ_of_le (ih hl)
          | false =>
              simp only [List.filter_cons, hg, hf]
              exact ih hl

theorem length_filter_strict_mono (l : List Workspace)
    (f g : Workspace → Bool) (h : ∀ a ∈ l, g a = true → f a = true)
    (x : Workspace) (hxl : x ∈ l) (hxf : f x = true) (hxg : g x = false) :
    (l.filter g).length < (l.filter f).length := by
  induction l with
  | nil => cases hxl
  | cons a l ih =>
      have hl : ∀ b ∈ l, g b = true → f b = true := fun b hb =>
        h b (List.mem_cons_of_mem a hb)
      rcases List.mem_cons.mp hxl with hax | hxl'
      · subst hax
        simp only [List.filter_cons, hxf, hxg, List.length_cons]
        exact Nat.lt_succ_of_le (length_filter_mono l f g hl)
      · cases hg : g a with
        | true =>
            have hf : f a = true := h a (List.mem_cons_self a l) hg
            simp only [List.filter_cons, hg, hf, List.length_cons]
            exact Nat.succ_lt_succ (ih hl hxl')
        | false =>
            cases hf : f a with
            | true =>
                simp only [List.filter_cons, hg, hf, List.length_cons]
                exact Nat.lt_succ_of_lt (ih hl hxl')
            | false =>
                simp only [List.filter_cons, hg, hf]
                exact ih hl hxl'

theorem missingCount_lt (p : Project) (rw rw' : List Workspace)
    (hsub : ∀ y ∈ rw, y ∈ rw') (x : Workspace) (hxp : x ∈ p.workspaces)
    (hxo : x ∉ rw) (hxn : x ∈ rw') :
    missingCount p rw' < missingCount p rw := by
  unfold missingCount
  refine length_filter_strict_mono p.workspaces
    (fun w => decide (w ∉ rw)) (fun w => decide (w ∉ rw')) ?_ x hxp ?_ ?_
  · intro a _ ha
    have ha' : a ∉ rw' := of_decide_eq_true ha
    exact decide_eq_true (fun hc => ha' (hsub a hc))
  · exact decide_eq_true hxo
  · simpa using hxn

theorem missingCount_le (p : Project) (rw : List Workspace) :
    missingCount p rw ≤ p.workspaces.length :=
  List.length_filter_le _ _

theorem addDependents_mono (releases : Releases) :
    ∀ (und : List (Workspace × Decision)) (rw : List Workspace)
      (rr : Releases) (b : Bool) (y : Workspace), y ∈ rw →
      y ∈ (addDependents releases und rw rr b).1 := by
  intro und
  induction und with
  | nil => intro rw rr b y hy; exact hy
  | cons wd rest ih =>
      intro rw rr b y hy
      obtain ⟨w, d⟩ := wd
      by_cases hw : w ∈ rw
      · simpa only [addDependents, if_pos hw] using ih rw rr b y hy
      · simp only [addDependents, if_neg hw]
        exact ih (rw ++ [w]) _ true y (List.mem_append_left _ hy)

theorem addDependents_subset (releases : Releases) :
    ∀ (und : List (Workspace × Decision)) (rw : List Workspace)
      (rr : Releases) (b : Bool) (x : Workspace),
      x ∈ (addDependents releases und rw rr b).1 →
      x ∈ rw ∨ x ∈ und.map Prod.fst := by
  intro und
  induction und with
  | nil => intro rw rr b x hx; exact Or.inl hx
  | cons wd rest ih =>
      intro rw rr b x hx
      obtain ⟨w, d⟩ := wd
      by_cases hw : w ∈ rw
      · simp only [addDependents, if_pos hw] at hx
        rcases ih rw rr b x hx with h | h
        · exact Or.inl h
        · exact Or.inr (List.mem_cons_of_mem _ h)
      · simp only [addDependents, if_neg hw] at hx
        rcases ih (rw ++ [w]) _ true x hx with h | h
        · rcases List.mem_append.mp h with h' | h'
          · exact Or.inl h'
          · simp only [List.mem_singleton] at h'
            subst h'
            exact Or.inr (List.mem_cons_self _ _)
        · exact Or.inr (List.mem_cons_of_mem _ h)

theorem addDependents_restricted (releases : Releases) :
    ∀ (und : List (Workspace × Decision)) (rw : List Workspace)
      (rr : Releases) (b : Bool), RestrictedTo releases rr rw →
      RestrictedTo releases (addDependents releases und rw rr b).2.1
        (addDependents releases und rw rr b).1 := by
  intro und
  induction und with
  | nil => intro rw rr b h; exact h
  | cons wd rest ih =>
      intro rw rr b h
      obtain ⟨w, d⟩ := wd
      by_cases hw : w ∈ rw
      · simpa only [addDependents, if_pos hw] using ih rw rr b h
      · simp only [addDependents, if_neg hw]
        refine ih (rw ++ [w]) _ true ?_
        intro x
        have hx' : (x ∈ rw ++ [w]) ↔ (x ∈ rw ∨ x = w) := by
          simp [List.mem_append]
        cases hrel : lookupRel releases w with
        | some r =>
            rw [lookupRel_mapSet]
            by_cases hxw : w = x
            · subst hxw
              have : w ∈ rw ++ [w] := List.mem_append_right _ (by simp)
              simp [this, hrel]
            · rw [if_neg hxw, h x]
              have hmem : (x ∈ rw ++ [w]) ↔ (x ∈ rw) := by
                rw [hx']
                constructor
                · rintro (h' | h')
                  · exact h'
                  · exact absurd h'.symm hxw
                · exact Or.inl
              by_cases hxrw : x ∈ rw
              · simp [hxrw, hmem.mpr hxrw]
              · have : x ∉ rw ++ [w] := fun hc => hxrw (hmem.mp hc)
                simp [hxrw, this]
        | none =>
            by_cases hxw : w = x
            · subst hxw
              have hmem : w ∈ rw ++ [w] := List.mem_append_right _ (by simp)
              rw [h w, if_neg hw, if_pos hmem, hrel]
            · rw [h x]
              have hmem : (x ∈ rw ++ [w]) ↔ (x ∈ rw) := by
                rw [hx']
                constructor
                · rintro (h' | h')
                  · exact h'
                  · exact absurd h'.symm hxw
                · exact Or.inl
              by_cases hxrw : x ∈ rw
              · simp [hxrw, hmem.mpr hxrw]
              · have : x ∉ rw ++ [w] := fun hc => hxrw (hmem.mp hc)
                simp [hxrw, this]

theorem addDependents_flag_true (releases : Releases) :
    ∀ (und : List (Workspace × Decision)) (rw : List Workspace)
      (rr : Releases), (addDependents releases und rw rr true).2.2 = true := by
  intro und
  induction und with
  | nil => intro rw rr; rfl
  | cons wd rest ih =>
      intro rw rr
      obtain ⟨w, d⟩ := wd
      by_cases hw : w ∈ rw
      · simpa only [addDependents, if_pos hw] using ih rw rr
      · simp only [addDependents, if_neg hw]
        exact ih (rw ++ [w]) _

theorem addDependents_exit (releases : Releases) :
    ∀ (und : List (Workspace × Decision)) (rw : List Workspace)
      (rr : Releases) (b : Bool),
      (addDependents releases und rw rr b).2.2 = false →
      b = false ∧ (addDependents releases und rw rr b).1 = rw ∧
        (addDependents releases und rw rr b).2.1 = rr ∧
        ∀ wd ∈ und, wd.1 ∈ rw := by
  intro und
  induction und with
  | nil =>
      intro rw rr b h
      exact ⟨h, rfl, rfl, by intro wd hwd; cases hwd⟩
  | cons wd rest ih =>
      intro rw rr b h
      obtain ⟨w, d⟩ := wd
      by_cases hw : w ∈ rw
      · simp only [addDependents, if_pos hw] at h
        obtain ⟨hb, h1, h2, h3⟩ := ih rw rr b h
        refine ⟨hb, ?_, ?_, ?_⟩
        · simpa only [addDependents, if_pos hw] using h1
        · simpa only [addDependents, if_pos hw] using h2
        · intro wd' hwd'
          rcases List.mem_cons.mp hwd' with h' | h'
          · subst h'; exact hw
          · exact h3 wd' h'
      · exfalso
        simp only [addDependents, if_neg hw] at h
        rw [addDependents_flag_true releases rest (rw ++ [w]) _] at h
        cases h

theorem addDependents_progress (releases : Releases) :
    ∀ (und : List (Workspace × Decision)) (rw : List Workspace)
      (rr : Releases), (addDependents releases und rw rr false).2.2 = true →
      ∃ x, x ∈ (addDependents releases und rw rr false).1 ∧ x ∉ rw ∧
        x ∈ und.map Prod.fst := by
  intro und
  induction und with
  | nil => intro rw rr h; cases h
  | cons wd rest ih =>
      intro rw rr h
      obtain ⟨w, d⟩ := wd
      by_cases hw : w ∈ rw
      · simp only [addDependents, if_pos hw] at h ⊢
        obtain ⟨x, h1, h2, h3⟩ := ih rw rr h
        exact ⟨x, h1, h2, List.mem_cons_of_mem _ h3⟩
      · refine ⟨w, ?_, hw, by simp⟩
        simp only [addDependents, if_neg hw]
        exact addDependents_mono releases rest (rw ++ [w]) _ true w
          (List.mem_append_right _ (by simp))

/-- Invariant of the relevancy loop: the release roots are in the considered
set, `rr` is the restriction of the input decisions to the considered set,
and every considered workspace is transitively implicated. -/
def LoopInv (p : Project) (releases : Releases) (roots : List Workspace)
    (rw : List Workspace) (rr : Releases) : Prop :=
  (∀ x ∈ roots, x ∈ rw) ∧ RestrictedTo releases rr rw ∧
    ∀ x ∈ rw, Implicated p releases roots x

theorem undecided_keys_mem_workspaces (p : Project) (rr : Releases) :
    ∀ wd ∈ getUndecidedDependentWorkspaces p rr, wd.1 ∈ p.workspaces := by
  intro wd hwd
  obtain ⟨w, hw, hwd'⟩ := List.mem_map.mp hwd
  subst hwd'
  exact (List.mem_filter.mp hw).1

theorem undecided_mem_elim (p : Project) (rr : Releases) (wd : Workspace × Decision)
    (hwd : wd ∈ getUndecidedDependentWorkspaces p rr) :
    wd.1 ∈ p.workspaces ∧ lookupRel rr wd.1 = none ∧
      ∃ u d, (wd.1, u) ∈ p.deps ∧ lookupRel rr u = some d ∧
        d ≠ Decision.decline := by
  obtain ⟨w, hw, hwd'⟩ := List.mem_map.mp hwd
  subst hwd'
  obtain ⟨hmem, hcond⟩ := List.mem_filter.mp hw
  rw [Bool.and_eq_true] at hcond
  obtain ⟨hnone, hrel⟩ := hcond
  refine ⟨hmem, Option.isNone_iff_eq_none.mp hnone, ?_⟩
  obtain ⟨e, he, hcond'⟩ := List.any_eq_true.mp hrel
  rw [Bool.and_eq_true] at hcond'
  obtain ⟨heq, hmatch⟩ := hcond'
  have heq' : e.1 = w := by simpa using heq
  cases hlu : lookupRel rr e.2 with
  | none => rw [hlu] at hmatch; cases hmatch
  | some d =>
      rw [hlu] at hmatch
      have hd : d ≠ Decision.decline := by simpa using hmatch
      refine ⟨e.2, d, ?_, hlu, hd⟩
      have : (e.1, e.2) = e := rfl
      rw [heq'] at this
      rw [this]
      exact he

theorem undecided_mem_intro (p : Project) (rr : Releases) (w u : Workspace)
    (d : Decision) (hws : w ∈ p.workspaces) (hnone : lookupRel rr w = none)
    (hedge : (w, u) ∈ p.deps) (hlu : lookupRel rr u = some d)
    (hd : d ≠ Decision.decline) :
    (w, Decision.undecided) ∈ getUndecidedDependentWorkspaces p rr := by
  unfold getUndecidedDependentWorkspaces
  refine List.mem_map.mpr ⟨w, ?_, rfl⟩
  refine List.mem_filter.mpr ⟨hws, ?_⟩
  rw [Bool.and_eq_true]
  constructor
  · rw [hnone]; rfl
  · refine List.any_eq_true.mpr ⟨(w, u), hedge, ?_⟩
    rw [Bool.and_eq_true]
    constructor
    · simp
    · show (match lookupRel rr u with
        | some d => d != Decision.decline
        | none => false) = true
      rw [hlu]
      simpa using hd

theorem undecided_keys_implicated (p : Project) (releases : Releases)
    (roots : List Workspace) (rw : List Workspace) (rr : Releases)
    (hres : RestrictedTo releases rr rw)
    (hsound : ∀ x ∈ rw, Implicated p releases roots x) :
    ∀ wd ∈ getUndecidedDependentWorkspaces p rr,
      Implicated p releases roots wd.1 := by
  intro wd hwd
  obtain ⟨hws, _, u, d, hedge, hlu, hd⟩ := undecided_mem_elim p rr wd hwd
  have hres' := hres u
  rw [hlu] at hres'
  by_cases hu : u ∈ rw
  · rw [if_pos hu] at hres'
    exact Implicated.dep (hsound u hu) hres'.symm hd hedge hws
  · rw [if_neg hu] at hres'
    cases hres'

theorem loopInv_step (p : Project) (releases : Releases)
    (roots : List Workspace) (rw : List Workspace) (rr : Releases)
    (h : LoopInv p releases roots rw rr) :
    LoopInv p releases roots
      (addDependents releases (getUndecidedDependentWorkspaces p rr) rw rr
        false).1
      (addDependents releases (getUndecidedDependentWorkspaces p rr) rw rr
        false).2.1 := by
  obtain ⟨h1, h2, h3⟩ := h
  refine ⟨?_, addDependents_restricted releases _ rw rr false h2, ?_⟩
  · intro x hx
    exact addDependents_mono releases _ rw rr false x (h1 x hx)
  · intro x hx
    rcases addDependents_subset releases _ rw rr false x hx with h' | h'
    · exact h3 x h'
    · obtain ⟨wd, hwd, hwd'⟩ := List.mem_map.mp h'
      rw [← hwd']
      exact undecided_keys_implicated p releases roots rw rr h2 h3 wd hwd

theorem relevancyLoop_spec (releases : Releases) (p : Project)
    (roots : List Workspace) :
    ∀ (fuel : Nat) (rw : List Workspace) (rr : Releases),
      LoopInv p releases roots rw rr → missingCount p rw < fuel →
      LoopInv p releases roots (relevancyLoop releases p fuel rw rr).1
          (relevancyLoop releases p fuel rw rr).2 ∧
        ∀ wd ∈ getUndecidedDependentWorkspaces p
            (relevancyLoop releases p fuel rw rr).2,
          wd.1 ∈ (relevancyLoop releases p fuel rw rr).1 := by
  intro fuel
  induction fuel with
  | zero => intro rw rr _ hlt; exact absurd hlt (Nat.not_lt_zero _)
  | succ fuel ih =>
      intro rw rr hinv hlt
      have hunfold : relevancyLoop releases p (fuel + 1) rw rr =
          (if (addDependents releases (getUndecidedDependentWorkspaces p rr)
              rw rr false).2.2 = true then
            relevancyLoop releases p fuel
              (addDependents releases (getUndecidedDependentWorkspaces p rr)
                rw rr false).1
              (addDependents releases (getUndecidedDependentWorkspaces p rr)
                rw rr false).2.1
          else (rw, rr)) := rfl
      by_cases hflag : (addDependents releases
          (getUndecidedDependentWorkspaces p rr) rw rr false).2.2 = true
      · rw [hunfold, if_pos hflag]
        obtain ⟨x, hx1, hx2, hx3⟩ :=
          addDependents_progress releases _ rw rr hflag
        obtain ⟨wd, hwd, hwd'⟩ := List.mem_map.mp hx3
        have hxws : x ∈ p.workspaces := by
          rw [← hwd']
          exact undecided_keys_mem_workspaces p rr wd hwd
        have hdec : missingCount p
            (addDependents releases (getUndecidedDependentWorkspaces p rr)
              rw rr false).1 < missingCount p rw :=
          missingCount_lt p rw _
            (fun y hy => addDependents_mono releases _ rw rr false y hy)
            x hxws hx2 hx1
        exact ih _ _ (loopInv_step p releases roots rw rr hinv)
          (Nat.lt_of_lt_of_le hdec (Nat.lt_succ_iff.mp hlt))
      · rw [hunfold, if_neg hflag]
        have hexit := addDependents_exit releases _ rw rr false
          (Bool.eq_false_iff.mpr hflag)
        exact ⟨hinv, hexit.2.2.2⟩

theorem relevancyLoop_fuel_irrel (releases : Releases) (p : Project) :
    ∀ (fuel₁ fuel₂ : Nat) (rw : List Workspace) (rr : Releases),
      missingCount p rw < fuel₁ → missingCount p rw < fuel₂ →
      relevancyLoop releases p fuel₁ rw rr =
        relevancyLoop releases p fuel₂ rw rr := by
  intro fuel₁
  induction fuel₁ with
  | zero => intro fuel₂ rw rr h1 _; exact absurd h1 (Nat.not_lt_zero _)
  | succ f ih =>
      intro fuel₂ rw rr h1 h2
      cases fuel₂ with
      | zero => exact absurd h2 (Nat.not_lt_zero _)
      | succ f₂ =>
          have hunfold₁ : relevancyLoop releases p (f + 1) rw rr =
              (if (addDependents releases
                  (getUndecidedDependentWorkspaces p rr) rw rr
                  false).2.2 = true then
                relevancyLoop releases p f
                  (addDependents releases
                    (getUndecidedDependentWorkspaces p rr) rw rr false).1
                  (addDependents releases
                    (getUndecidedDependentWorkspaces p rr) rw rr false).2.1
              else (rw, rr)) := rfl
          have hunfold₂ : relevancyLoop releases p (f₂ + 1) rw rr =
              (if (addDependents releases
                  (getUndecidedDependentWorkspaces p rr) rw rr
                  false).2.2 = true then
                relevancyLoop releases p f₂
                  (addDependents releases
                    (getUndecidedDependentWorkspaces p rr) rw rr false).1
                  (addDependents releases
                    (getUndecidedDependentWorkspaces p rr) rw rr false).2.1
              else (rw, rr)) := rfl
          by_cases hflag : (addDependents releases
              (getUndecidedDependentWorkspaces p rr) rw rr false).2.2 = true
          · rw [hunfold₁, hunfold₂, if_pos hflag, if_pos hflag]
            obtain ⟨x, hx1, hx2, hx3⟩ :=
              addDependents_progress releases _ rw rr hflag
            obtain ⟨wd, hwd, hwd'⟩ := List.mem_map.mp hx3
            have hxws : x ∈ p.workspaces := by
              rw [← hwd']
              exact undecided_keys_mem_workspaces p rr wd hwd
            have hdec : missingCount p
                (addDependents releases
                  (getUndecidedDependentWorkspaces p rr) rw rr false).1 <
                missingCount p rw :=
              missingCount_lt p rw _
                (fun y hy => addDependents_mono releases _ rw rr false y hy)
                x hxws hx2 hx1
            exact ih f₂ _ _
              (Nat.lt_of_lt_of_le hdec (Nat.lt_succ_iff.mp h1))
              (Nat.lt_of_lt_of_le hdec (Nat.lt_succ_iff.mp h2))
          · rw [hunfold₁, hunfold₂, if_neg hflag, if_neg hflag]

theorem lookupRel_filter_mem (releases : Releases) (s : List Workspace)
    (x : Workspace) :
    lookupRel (releases.filter (fun q => decide (q.1 ∈ s))) x =
      if x ∈ s then lookupRel releases x else none := by
  induction releases with
  | nil => simp [lookupRel]
  | cons q rest ih =>
      obtain ⟨w, d⟩ := q
      by_cases hws : w ∈ s
      · by_cases hwx : w = x
        · subst hwx
          simp [lookupRel, hws]
        · simp only [List.filter_cons]
          rw [decide_eq_true hws]
          simp only [lookupRel, if_neg hwx]
          exact ih
      · by_cases hwx : w = x
        · subst hwx
          simp only [List.filter_cons]
          rw [decide_eq_false hws]
          simp only [Bool.false_eq_true, if_false]
          rw [ih, if_neg hws]
          simp [lookupRel, hws]
        · simp only [List.filter_cons]
          rw [decide_eq_false hws]
          simp only [Bool.false_eq_true, if_false]
          rw [ih]
          simp only [lookupRel, if_neg hwx]

theorem getRelevancy_inv (vf : VersionFile) (releases : Releases) :
    LoopInv vf.project releases vf.releaseRoots
        (getRelevancy vf releases).relevantWorkspaces
        (getRelevancy vf releases).relevantReleases ∧
      ∀ wd ∈ getUndecidedDependentWorkspaces vf.project
          (getRelevancy vf releases).relevantReleases,
        wd.1 ∈ (getRelevancy vf releases).relevantWorkspaces := by
  have hbase : LoopInv vf.project releases vf.releaseRoots vf.releaseRoots
      (releases.filter (fun q => decide (q.1 ∈ vf.releaseRoots))) := by
    refine ⟨fun x hx => hx, ?_, fun x hx => Implicated.root hx⟩
    intro x
    exact lookupRel_filter_mem releases vf.releaseRoots x
  have hfuel : missingCount vf.project vf.releaseRoots <
      vf.project.workspaces.length + 1 :=
    Nat.lt_succ_of_le (missingCount_le vf.project vf.releaseRoots)
  exact relevancyLoop_spec releases vf.project vf.releaseRoots
    (vf.project.workspaces.length + 1) vf.releaseRoots
    (releases.filter (fun q => decide (q.1 ∈ vf.releaseRoots))) hbase hfuel

theorem implicated_mem_relevant (vf : VersionFile) (releases : Releases) :
    ∀ w : Workspace, Implicated vf.project releases vf.releaseRoots w →
      w ∈ (getRelevancy vf releases).relevantWorkspaces := by
  obtain ⟨⟨hroots, hres, _⟩, hexit⟩ := getRelevancy_inv vf releases
  intro w himp
  induction himp with
  | root h => exact hroots _ h
  | dep himpu hrel hd hedge hws ihu =>
      rename_i u w' d'
      by_cases hw : w' ∈ (getRelevancy vf releases).relevantWorkspaces
      · exact hw
      · have hu' := ihu
        have hrru : lookupRel (getRelevancy vf releases).relevantReleases u =
            some d' := by
          rw [hres u, if_pos hu', hrel]
        have hrrw : lookupRel (getRelevancy vf releases).relevantReleases w' =
            none := by
          rw [hres w', if_neg hw]
        exact hexit (w', Decision.undecided)
          (undecided_mem_intro vf.project _ w' u d' hws hrrw hedge hrru hd)

/-- C3: `clearVersionFiles` is invoked exactly when `--dry-run` is unset, the
prerelease identifier is null, and the resolved releases map is non-empty;
in particular it is never invoked under `--dry-run` or prerelease mode. -/
theorem apply_clearVersionFiles_iff (dryRun : Bool) (o : PrereleaseOpt)
    (resolve : Option String → Releases) :
    (executeApply dryRun o resolve).clearedVersionFiles =
      (!dryRun && (prereleaseIdent o).isNone &&
        !(resolve (prereleaseIdent o)).isEmpty) := by
  unfold executeApply
  by_cases he : (resolve (prereleaseIdent o)).isEmpty
  · simp [he]
  · cases dryRun <;> simp [he]

/-- C5: when the resolved releases map is empty, the apply command reports
the nothing-to-do warning and exits successfully, without applying releases,
clearing version files, or running the installer. -/
theorem apply_empty_no_side_effects (dryRun : Bool) (o : PrereleaseOpt)
    (resolve : Option String → Releases)
    (h : (resolve (prereleaseIdent o)).isEmpty = true) :
    (executeApply dryRun o resolve).warnedNothingToDo = true ∧
      (executeApply dryRun o resolve).appliedReleases = false ∧
      (executeApply dryRun o resolve).clearedVersionFiles = false ∧
      (executeApply dryRun o resolve).ranInstall = false ∧
      (executeApply dryRun o resolve).exitCode = 0 := by
  unfold executeApply
  simp [h]

/-- Closed witness for `apply_empty_no_side_effects` at a concrete input. -/
theorem apply_empty_no_side_effects_witness :
    (executeApply true .absent (fun _ => [])).warnedNothingToDo = true ∧
      (executeApply true .absent (fun _ => [])).appliedReleases = false ∧
      (executeApply true .absent (fun _ => [])).clearedVersionFiles = false ∧
      (executeApply true .absent (fun _ => [])).ranInstall = false ∧
      (executeApply true .absent (fun _ => [])).exitCode = 0 :=
  apply_empty_no_side_effects true .absent (fun _ => []) (by rfl)

/-- C6 counterexample: the claim says the identifier passed on to
`resolveVersionFiles` is the literal supplied string whenever a string was
supplied, and `rc.%n` whenever the flag was boolean-shaped; but the code's
truthiness test maps the empty string and `false` to null. -/
theorem apply_prerelease_claim_counterexample :
    (executeApply false (.str "") (fun _ => [])).passedPrerelease = none ∧
      (executeApply false (.str "") (fun _ => [])).passedPrerelease ≠
        some "" ∧
      (executeApply false (.bool false) (fun _ => [])).passedPrerelease =
        none ∧
      (executeApply false (.bool false) (fun _ => [])).passedPrerelease ≠
        some "rc.%n" := by
  refine ⟨rfl, ?_, rfl, ?_⟩ <;> decide

/-! ## The `version check` command (`VersionCheckCommand.executeInteractive`) -/

/-- The outcome of `executeInteractive`: an explicit numeric return, the
`UsageError` thrown when Git is required, or the final `return undefined`. -/
inductive CheckResult where
  | exit (n : Nat)
  | usageError
  | finished
  deriving DecidableEq, Repr

/-- The externally observable effects of `executeInteractive`:
whether the interactive form was rendered, the releases map passed to
`saveAll` (none when `saveAll` was not invoked), and the version file's
in-memory releases map when the command ends. -/
structure CheckEffects where
  result : CheckResult
  renderedForm : Bool
  savedReleases : Option Releases
  finalReleases : Releases
  deriving DecidableEq, Repr

/-- Embedding of `versionFile.releases.clear()` followed by
`for (const [workspace, decision] of decisions) versionFile.releases.set(…)`
(lines 527–531): rebuild the map from scratch out of the decisions. -/
def repopulate (ds : Releases) : Releases :=
  ds.foldl (fun m p => mapSet m p.1 p.2) []

/-- Shallow embedding of the control flow of
`VersionCheckCommand.executeInteractive` (lines 147–536), with the rendered
form's outcome supplied as the `decisions` parameter (`renderForm` is the
external presentation layer; `undefined` models a user abort): return 0 when
`openVersionFile` yields null or the release-roots set is empty; throw the
Git-required usage error when the VCS root is null; return 1 on abort with
nothing saved; otherwise clear and repopulate the releases map from the
decisions and invoke `saveAll`. -/
def executeCheck (vfOpt : Option VersionFile) (decisions : Option Releases) :
    CheckEffects :=
  match vfOpt with
  | none =>
      { result := .exit 0
        renderedForm := false
        savedReleases := none
        finalReleases := [] }
  | some vf =>
      if vf.releaseRoots.isEmpty then
        { result := .exit 0
          renderedForm := false
          savedReleases := none
          finalReleases := vf.releases }
      else
        match vf.root with
        | none =>
            { result := .usageError
              renderedForm := false
              savedReleases := none
              finalReleases := vf.releases }
        | some _ =>
            match decisions with
            | none =>
                { result := .exit 1
                  renderedForm := true
                  savedReleases := none
                  finalReleases := vf.releases }
            | some ds =>
                { result := .finished
                  renderedForm := true
                  savedReleases := some (repopulate ds)
                  finalReleases := repopulate ds }

theorem lookupRel_eq_none_of_not_mem_keys (ds : Releases) (x : Workspace)
    (h : x ∉ ds.map Prod.fst) : lookupRel ds x = none := by
  induction ds with
  | nil => rfl
  | cons p rest ih =>
      simp only [List.map_cons, List.mem_cons] at h
      push_neg at h
      have h1 : p.1 ≠ x := fun hc => h.1 hc.symm
      obtain ⟨w, d⟩ := p
      simp only [lookupRel]
      rw [if_neg h1]
      exact ih h.2

theorem lookupRel_foldl_mapSet (ds : Releases) (acc : Releases) (x : Workspace)
    (h : (ds.map Prod.fst).Nodup) :
    lookupRel (ds.foldl (fun m p => mapSet m p.1 p.2) acc) x =
      (match lookupRel ds x with
        | some d => some d
        | none => lookupRel acc x) := by
  induction ds generalizing acc with
  | nil => rfl
  | cons p rest ih =>
      obtain ⟨w, d⟩ := p
      simp only [List.map_cons, List.nodup_cons] at h
      simp only [List.foldl_cons]
      rw [ih (mapSet acc w d) h.2]
      by_cases hx : w = x
      · subst hx
        have hnone : lookupRel rest w = none :=
          lookupRel_eq_none_of_not_mem_keys rest w h.1
        simp [lookupRel, hnone, lookupRel_mapSet]
      · have hx' : ¬w = x := hx
        simp only [lookupRel, if_neg hx']
        cases hr : lookupRel rest x with
        | some d' => rfl
        | none => simp [lookupRel_mapSet, hx']

theorem lookupRel_repopulate (ds : Releases) (x : Workspace)
    (h : (ds.map Prod.fst).Nodup) :
    lookupRel (repopulate ds) x = lookupRel ds x := by
  unfold repopulate
  rw [lookupRel_foldl_mapSet ds [] x h]
  cases lookupRel ds x <;> rfl

/-- C7: the check command exits 0 with no interaction and no save when the
version file is null or has no release roots, and throws the Git-required
usage error, before any resolution or save, when the file is non-null with
release roots but a null VCS root. -/
theorem check_guards (vf : VersionFile) (decisions : Option Releases) :
    (∀ ds : Option Releases,
        executeCheck none ds =
          { result := .exit 0
            renderedForm := false
            savedReleases := none
            finalReleases := [] }) ∧
      (vf.releaseRoots.isEmpty = true →
        executeCheck (some vf) decisions =
          { result := .exit 0
            renderedForm := false
            savedReleases := none
            finalReleases := vf.releases }) ∧
      (vf.releaseRoots.isEmpty = false → vf.root = none →
        executeCheck (some vf) decisions =
          { result := .usageError
            renderedForm := false
            savedReleases := none
            finalReleases := vf.releases }) := by
  refine ⟨fun ds => rfl, fun h => ?_, fun h hr => ?_⟩
  · simp [executeCheck, h]
  · simp [executeCheck, h, hr]

/-- Closed witness for `check_guards` at concrete version files. -/
theorem check_guards_witness :
    executeCheck (some ⟨some "/repo", [], [(0, Decision.patch)], ⟨[0], []⟩⟩)
        none =
      { result := .exit 0
        renderedForm := false
        savedReleases := none
        finalReleases := [(0, Decision.patch)] } ∧
      executeCheck (some ⟨none, [0], [(0, Decision.patch)], ⟨[0], []⟩⟩)
          none =
        { result := .usageError
          renderedForm := false
          savedReleases := none
          finalReleases := [(0, Decision.patch)] } :=
  ⟨((check_guards ⟨some "/repo", [], [(0, Decision.patch)], ⟨[0], []⟩⟩
        none).2.1 (by rfl)),
    ((check_guards ⟨none, [0], [(0, Decision.patch)], ⟨[0], []⟩⟩
        none).2.2 (by rfl) rfl)⟩

/-- C4: when the rendered form returns no decisions map (user abort),
`saveAll` is not invoked, the version file's releases map is unchanged, and
the command returns exit code 1; `saveAll` is invoked only when a finalized
decisions map is returned. -/
theorem check_abort_no_persistence (vf : VersionFile)
    (hroots : vf.releaseRoots.isEmpty = false) (hroot : vf.root.isSome) :
    (executeCheck (some vf) none).result = .exit 1 ∧
      (executeCheck (some vf) none).savedReleases = none ∧
      (executeCheck (some vf) none).finalReleases = vf.releases ∧
      (∀ ds : Option Releases,
        ((executeCheck (some vf) ds).savedReleases).isSome = true →
          ds.isSome = true) := by
  obtain ⟨r, hr⟩ := Option.isSome_iff_exists.mp hroot
  refine ⟨?_, ?_, ?_, ?_⟩
  · simp [executeCheck, hroots, hr]
  · simp [executeCheck, hroots, hr]
  · simp [executeCheck, hroots, hr]
  · intro ds hds
    cases ds with
    | some d => rfl
    | none => simp [executeCheck, hroots, hr] at hds

/-- Closed witness for `check_abort_no_persistence` at a concrete file. -/
theorem check_abort_no_persistence_witness :
    (executeCheck (some ⟨some "/repo", [0], [(1, Decision.minor)], ⟨[0, 1],
        [(1, 0)]⟩⟩) none).result = .exit 1 :=
  (check_abort_no_persistence
    ⟨some "/repo", [0], [(1, Decision.minor)], ⟨[0, 1], [(1, 0)]⟩⟩
    rfl rfl).1

/-- C10: on confirmation, the in-memory releases map is cleared and
repopulated with exactly the entries of the finalized decisions map, and
`saveAll` receives precisely that repopulated state: every lookup in the
persisted map agrees with the decisions map, so pre-existing entries absent
from it are discarded and the persisted state depends only on the form's
output. -/
theorem check_confirm_repopulates (vf : VersionFile) (ds : Releases)
    (hroots : vf.releaseRoots.isEmpty = false) (hroot : vf.root.isSome)
    (hnodup : (ds.map Prod.fst).Nodup) :
    (executeCheck (some vf) (some ds)).savedReleases =
        some ((executeCheck (some vf) (some ds)).finalReleases) ∧
      (∀ x : Workspace,
        lookupRel ((executeCheck (some vf) (some ds)).finalReleases) x =
          lookupRel ds x) := by
  obtain ⟨r, hr⟩ := Option.isSome_iff_exists.mp hroot
  constructor
  · simp [executeCheck, hroots, hr]
  · intro x
    have hfinal : (executeCheck (some vf) (some ds)).finalReleases =
        repopulate ds := by
      simp [executeCheck, hroots, hr]
    rw [hfinal]
    exact lookupRel_repopulate ds x hnodup

/-- Closed witness for `check_confirm_repopulates` at a concrete file:
the pre-existing entry for workspace 1 is discarded and the saved map is
exactly the finalized decisions. -/
theorem check_confirm_repopulates_witness :
    lookupRel ((executeCheck
        (some ⟨some "/repo", [0], [(1, Decision.minor)], ⟨[0, 1], [(1, 0)]⟩⟩)
        (some [(0, Decision.patch)])).finalReleases) 1 =
      lookupRel [(0, Decision.patch)] 1 :=
  (check_confirm_repopulates
    ⟨some "/repo", [0], [(1, Decision.minor)], ⟨[0, 1], [(1, 0)]⟩⟩
    [(0, Decision.patch)] rfl rfl (by simp)).2 1

/-- C1: `getRelevancy` returns exactly the release roots plus the workspaces
transitively implicated through the undecided-dependent relation by the
retained decisions, and a `relevantReleases` map that keeps an input decision
exactly when its workspace is so implicated; in particular, in the concrete
scenario where workspace 1 depends on root 0 and the root's decision has been
removed from the map, workspace 1's retained decision is dropped — unless
workspace 1 is itself a release root. -/
theorem getRelevancy_pruning (vf : VersionFile) (releases : Releases) :
    (∀ w : Workspace,
        w ∈ (getRelevancy vf releases).relevantWorkspaces ↔
          Implicated vf.project releases vf.releaseRoots w) ∧
      (∀ w : Workspace, Implicated vf.project releases vf.releaseRoots w →
        lookupRel (getRelevancy vf releases).relevantReleases w =
          lookupRel releases w) ∧
      (∀ w : Workspace, ¬Implicated vf.project releases vf.releaseRoots w →
        lookupRel (getRelevancy vf releases).relevantReleases w = none) ∧
      lookupRel (getRelevancy ⟨some "/r", [0], [], ⟨[0, 1], [(1, 0)]⟩⟩
          [(1, Decision.patch)]).relevantReleases 1 = none ∧
      1 ∉ (getRelevancy ⟨some "/r", [0], [], ⟨[0, 1], [(1, 0)]⟩⟩
          [(1, Decision.patch)]).relevantWorkspaces ∧
      lookupRel (getRelevancy ⟨some "/r", [0, 1], [], ⟨[0, 1], [(1, 0)]⟩⟩
          [(1, Decision.patch)]).relevantReleases 1 = some Decision.patch := by
  obtain ⟨⟨hroots, hres, hsound⟩, _⟩ := getRelevancy_inv vf releases
  refine ⟨?_, ?_, ?_, by decide, by decide, by decide⟩
  · intro w
    exact ⟨hsound w, implicated_mem_relevant vf releases w⟩
  · intro w himp
    rw [hres w, if_pos (implicated_mem_relevant vf releases w himp)]
  · intro w himp
    by_cases hw : w ∈ (getRelevancy vf releases).relevantWorkspaces
    · exact absurd (hsound w hw) himp
    · rw [hres w, if_neg hw]

/-- Closed witness for `getRelevancy_pruning`: a root's own decision is
always retained. -/
theorem getRelevancy_pruning_witness :
    lookupRel (getRelevancy ⟨some "/r", [0], [], ⟨[0, 1], [(1, 0)]⟩⟩
        [(0, Decision.minor)]).relevantReleases 0 =
      lookupRel [(0, Decision.minor)] 0 :=
  (getRelevancy_pruning ⟨some "/r", [0], [], ⟨[0, 1], [(1, 0)]⟩⟩
      [(0, Decision.minor)]).2.1 0 (Implicated.root (by simp))

/-- C2: the fixed-point loop of `getRelevancy` terminates on every input:
each iteration either adds at least one workspace not previously present or
adds no new dependent and exits with the state unchanged, so any fuel beyond
the number of project workspaces yields the same result — the iteration
count is bounded by the (finite) workspace count. -/
theorem relevancyLoop_iterations_bounded (releases : Releases) (p : Project)
    (fuel : Nat) (rw : List Workspace) (rr : Releases)
    (hfuel : p.workspaces.length < fuel) :
    relevancyLoop releases p fuel rw rr =
        relevancyLoop releases p (p.workspaces.length + 1) rw rr ∧
      (((addDependents releases (getUndecidedDependentWorkspaces p rr) rw rr
            false).2.2 = false ∧
          (addDependents releases (getUndecidedDependentWorkspaces p rr) rw
            rr false).1 = rw ∧
          (addDependents releases (getUndecidedDependentWorkspaces p rr) rw
            rr false).2.1 = rr) ∨
        ∃ x : Workspace,
          x ∈ (addDependents releases (getUndecidedDependentWorkspaces p rr)
            rw rr false).1 ∧ x ∉ rw ∧ x ∈ p.workspaces) := by
  constructor
  · have hm : missingCount p rw ≤ p.workspaces.length := missingCount_le p rw
    exact relevancyLoop_fuel_irrel releases p fuel
      (p.workspaces.length + 1) rw rr (Nat.lt_of_le_of_lt hm hfuel)
      (Nat.lt_succ_of_le hm)
  · by_cases hflag : (addDependents releases
        (getUndecidedDependentWorkspaces p rr) rw rr false).2.2 = true
    · obtain ⟨x, hx1, hx2, hx3⟩ :=
        addDependents_progress releases _ rw rr hflag
      obtain ⟨wd, hwd, hwd'⟩ := List.mem_map.mp hx3
      refine Or.inr ⟨x, hx1, hx2, ?_⟩
      rw [← hwd']
      exact undecided_keys_mem_workspaces p rr wd hwd
    · have hexit := addDependents_exit releases _ rw rr false
        (Bool.eq_false_iff.mpr hflag)
      exact Or.inl ⟨Bool.eq_false_iff.mpr hflag, hexit.2.1, hexit.2.2.1⟩

/-- Closed witness for `relevancyLoop_iterations_bounded`: with two
workspaces, fuel 10 and fuel 3 agree. -/
theorem relevancyLoop_iterations_bounded_witness :
    relevancyLoop [(0, Decision.minor)] ⟨[0, 1], [(1, 0)]⟩ 10 [0]
        [(0, Decision.minor)] =
      relevancyLoop [(0, Decision.minor)] ⟨[0, 1], [(1, 0)]⟩
        ((⟨[0, 1], [(1, 0)]⟩ : Project).workspaces.length + 1) [0]
        [(0, Decision.minor)] :=
  (relevancyLoop_iterations_bounded [(0, Decision.minor)] ⟨[0, 1], [(1, 0)]⟩
    10 [0] [(0, Decision.minor)] (by decide)).1

/-- C9: the `relevantReleases` returned by `getRelevancy` is exactly the
restriction of the input map to the returned `relevantWorkspaces` set —
every retained entry keeps its original decision, no entry appears for a
workspace absent from the input map — and the release roots are always a
subset of `relevantWorkspaces`. -/
theorem getRelevancy_restriction (vf : VersionFile) (releases : Releases) :
    (∀ x ∈ vf.releaseRoots,
        x ∈ (getRelevancy vf releases).relevantWorkspaces) ∧
      ∀ x : Workspace,
        lookupRel (getRelevancy vf releases).relevantReleases x =
          if x ∈ (getRelevancy vf releases).relevantWorkspaces then
            lookupRel releases x
          else none := by
  obtain ⟨⟨hroots, hres, _⟩, _⟩ := getRelevancy_inv vf releases
  exact ⟨hroots, hres⟩

/-- Closed witness for `getRelevancy_restriction` at a concrete input. -/
theorem getRelevancy_restriction_witness :
    0 ∈ (getRelevancy ⟨some "/r", [0], [], ⟨[0, 1], [(1, 0)]⟩⟩
        [(1, Decision.patch)]).relevantWorkspaces :=
  (getRelevancy_restriction ⟨some "/r", [0], [], ⟨[0, 1], [(1, 0)]⟩⟩
    [(1, Decision.patch)]).1 0 (by simp)

/-- C8: invariant of the interactive releases map: if the current map has no
`UNDECIDED` entry, then after `setWorkspaceRelease` the resulting map still
has none — selecting `UNDECIDED` deletes the workspace's entry rather than
storing the sentinel value. -/
theorem setWorkspaceRelease_no_undecided (vf : VersionFile)
    (releases : Releases) (workspace : Workspace) (decision : Decision)
    (h : ∀ x : Workspace, lookupRel releases x ≠ some Decision.undecided) :
    ∀ x : Workspace,
      lookupRel (setWorkspaceRelease vf releases workspace decision) x ≠
        some Decision.undecided := by
  intro x
  unfold setWorkspaceRelease
  by_cases hdec : decision ≠ Decision.undecided
  · rw [if_pos hdec]
    obtain ⟨⟨_, hres, _⟩, _⟩ :=
      getRelevancy_inv vf (mapSet releases workspace decision)
    rw [hres x]
    by_cases hx : x ∈ (getRelevancy vf
        (mapSet releases workspace decision)).relevantWorkspaces
    · rw [if_pos hx, lookupRel_mapSet]
      by_cases hwx : workspace = x
      · rw [if_pos hwx]
        intro hc
        exact hdec (Option.some_injective _ hc)
      · rw [if_neg hwx]
        exact h x
    · rw [if_neg hx]
      exact fun hc => Option.noConfusion hc
  · rw [if_neg hdec]
    obtain ⟨⟨_, hres, _⟩, _⟩ :=
      getRelevancy_inv vf (mapDelete releases workspace)
    rw [hres x]
    by_cases hx : x ∈ (getRelevancy vf
        (mapDelete releases workspace)).relevantWorkspaces
    · rw [if_pos hx, lookupRel_mapDelete]
      by_cases hwx : workspace = x
      · rw [if_pos hwx]
        exact fun hc => Option.noConfusion hc
      · rw [if_neg hwx]
        exact h x
    · rw [if_neg hx]
      exact fun hc => Option.noConfusion hc

/-- Closed witness for `setWorkspaceRelease_no_undecided` at a concrete
input. -/
theorem setWorkspaceRelease_no_undecided_witness :
    lookupRel (setWorkspaceRelease ⟨some "/r", [0], [], ⟨[0], []⟩⟩ [] 0
        Decision.patch) 0 ≠ some Decision.undecided :=
  setWorkspaceRelease_no_undecided ⟨some "/r", [0], [], ⟨[0], []⟩⟩ [] 0
    Decision.patch (fun x => by simp [lookupRel]) 0

/-- C6 amended: the prerelease identifier passed to `resolveVersionFiles`
is the literal string given to `--prerelease` when a non-empty string was
supplied, the templated default `rc.%n` when the boolean `true` was supplied,
and null when the flag is absent, boolean `false`, or the empty string. -/
theorem apply_prerelease_ident_cases (dryRun : Bool) (o : PrereleaseOpt)
    (resolve : Option String → Releases) :
    (executeApply dryRun o resolve).passedPrerelease =
      (match o with
        | .absent => none
        | .bool b => if b then some "rc.%n" else none
        | .str s => if s = "" then none else some s) := by
  have hp : (executeApply dryRun o resolve).passedPrerelease =
      prereleaseIdent o := by
    unfold executeApply
    by_cases he : (resolve (prereleaseIdent o)).isEmpty <;>
      cases dryRun <;> simp [he]
  rw [hp]
  cases o with
  | absent => rfl
  | bool b => cases b <;> rfl
  | str s =>
      by_cases hs : s = "" <;> simp [prereleaseIdent, jsTruthy, hs]

end DevTool
